import Mathlib

/-!
Shallow embedding of the Ngram contrib operator
(src/onnxruntime/contrib_ops/cpu/ngram.cc).

The operator builds, at construction time, a pool of n-grams from a flat
vocabulary partitioned by order through a boundary list, and at compute time
scans an input token sequence with windows of every admissible order and skip
stride, accumulating per-bin counts which are then encoded as a float vector
under a TF / IDF / TFIDF weighting mode.  Machine `size_t` casts are made
explicit through `toSize`; floats are modelled as exact rationals; the
`unordered_set` pools are modelled as insertion-ordered lists with
equality-based deduplication, which matches the source's structural
`operator==` on the stored token vectors.
-/

set_option autoImplicit false
set_option linter.unusedSectionVars false

namespace NgramOp

variable {T : Type} [DecidableEq T]

/-- Weighting criteria (ngram.cc lines 202-207). -/
inductive WeightingCriteria
  | kNone
  | kTF
  | kIDF
  | kTFIDF
  deriving DecidableEq, Repr

/-- Configuration errors raised by the `Ngram::Ngram` constructor through
`ORT_ENFORCE`; each constructor corresponds to one enforce site. -/
inductive ConfigError
  | unrecognizedMode
  | badM
  | badMN
  | badS
  | emptyNgramCounts
  | mOutOfBounds
  | nOutOfBounds
  | emptyNgramIndexes
  | negativeNgramIndex
  | weightsSizeMismatch
  | emptyPoolStrings
  | missingPool
  | runOutOfBounds (k : ℕ)
  | notWholeNgrams (k : ℕ)
  | duplicateNgrams (k : ℕ)
  deriving DecidableEq, Repr

/-- Conversion of a signed 64-bit attribute value to `size_t`
(wrap-around modulo `2^64`, as in the C++ casts `size_t(impl_->M_)` and
`size_t start_idx = impl_->ngram_counts_[i]`). -/
def toSize (x : ℤ) : ℕ := (x % (2 : ℤ) ^ 64).toNat

/-- A pool (the `unordered_set` of `NgramItem`s) modelled as the list of
(id, token vector) pairs in insertion order.  `NgramItem::operator==`
compares the token vectors element-wise, so set membership is equality of
the second components. -/
abbrev Pool (T : Type) := List (ℕ × List T)

/-- One `unordered_set::emplace`: a no-op when an element with an equal token
vector is already present (the first id is kept), otherwise appended. -/
def setEmplace (pool : Pool T) (id : ℕ) (items : List T) : Pool T :=
  if pool.any (fun e => decide (e.2 = items)) then pool else pool ++ [(id, items)]

/-- `Emplace` (ngram.cc lines 162-169): inserts `n` consecutive n-grams of
`k` tokens each, starting at offset `s` of the vocabulary, advancing the
running id by one per n-gram whether or not the insertion deduplicated. -/
def Emplace (vocab : List T) (k : ℕ) : ℕ → ℕ → ℕ → Pool T → Pool T
  | _, 0, _, pool => pool
  | s, n + 1, id, pool =>
      Emplace vocab k (s + k) n (id + 1) (setEmplace pool id ((vocab.drop s).take k))

/-- The (start, end) offsets of the run of each order: `counts[i]` starts the
run of order `i+1`, which ends at `counts[i+1]`, or at the vocabulary's total
length for the last entry (ngram.cc lines 343-344); offsets go through the
`size_t` cast. -/
def runBounds (total : ℕ) : List ℤ → List (ℕ × ℕ)
  | [] => []
  | c :: rest =>
      (toSize c, match rest with | [] => total | c2 :: _ => toSize c2) :: runBounds total rest

/-- Retention test (ngram.cc lines 353-354): a run of order `k` is loaded
into the pool iff `all` is set and `M ≤ k ≤ N`, or `k = N`. -/
def retainOrder (allB : Bool) (M N k : ℕ) : Bool :=
  (allB && (decide (M ≤ k) && decide (k ≤ N))) || k == N

/-- The pool-construction loop of `Ngram::Ngram` (ngram.cc lines 342-369):
walks the per-order runs, validates bounds and whole-n-gram decomposition,
emplaces retained runs with the duplicate size check, and advances the
running id by the number of n-grams of every run, retained or not. -/
def buildRuns (vocab : List T) (total : ℕ) (retain : ℕ → Bool) :
    List (ℕ × ℕ) → ℕ → ℕ → Pool T → Except ConfigError (Pool T)
  | [], _, _, pool => .ok pool
  | (s, e) :: rest, k, id, pool =>
    if ¬ (s ≤ e ∧ e ≤ total) then .error (.runOutOfBounds k)
    else
      let items := e - s
      if items = 0 then buildRuns vocab total retain rest (k + 1) id pool
      else if ¬ items % k = 0 then .error (.notWholeNgrams k)
      else
        let ngrams := items / k
        if retain k then
          let pool2 := Emplace vocab k s ngrams id pool
          if pool2.length = pool.length + ngrams then
            buildRuns vocab total retain rest (k + 1) (id + ngrams) pool2
          else .error (.duplicateNgrams k)
        else buildRuns vocab total retain rest (k + 1) (id + ngrams) pool

/-- `output_size_` (ngram.cc lines 315-317): one past the greatest output
index (`*max_element + 1`); the empty case is unreachable behind the
non-empty `ngram_indexes` enforce. -/
def outputSize : List ℤ → ℕ
  | [] => 0
  | x :: rest => (rest.foldl max x).toNat + 1

/-- The raw attribute set consumed by `Ngram::Ngram`.  Required scalar
attributes are plain fields (their extraction is external plumbing); the
optional attributes `weights`, `pool_strings`, `pool_int64s` are `Option`s. -/
structure NgramCfg where
  mode : String
  M : ℤ
  N : ℤ
  S : ℤ
  all : ℤ
  ngram_counts : List ℤ
  ngram_indexes : List ℤ
  weights : Option (List ℚ)
  pool_strings : Option (List String)
  pool_int64s : Option (List ℤ)
  deriving DecidableEq

/-- The state held by `Ngram::Impl` after a successful construction. -/
structure NgramEngine where
  weighting : WeightingCriteria
  M : ℤ
  N : ℤ
  S : ℤ
  all : Bool
  ngram_counts : List ℤ
  ngram_indexes : List ℤ
  weights : List ℚ
  pool_strings : List String
  str_set : Pool String
  int_set : Pool ℤ
  output_size : ℕ
  deriving DecidableEq

/-- Mode parsing (ngram.cc lines 282-288): any string other than the three
recognized modes leaves the criteria at `kNone`, rejected right after. -/
def parseMode (mode : String) : WeightingCriteria :=
  if mode = "TF" then WeightingCriteria.kTF
  else if mode = "IDF" then WeightingCriteria.kIDF
  else if mode = "TFIDF" then WeightingCriteria.kTFIDF
  else WeightingCriteria.kNone

/-- The engine a successful construction yields: pools built by the run loop
from whichever vocabulary form is present. -/
def mkEngine (cfg : NgramCfg) (ps : List String) (sp : Pool String) (ip : Pool ℤ) :
    NgramEngine :=
  { weighting := parseMode cfg.mode, M := cfg.M, N := cfg.N, S := cfg.S,
    all := cfg.all != 0,
    ngram_counts := cfg.ngram_counts, ngram_indexes := cfg.ngram_indexes,
    weights := cfg.weights.getD [], pool_strings := ps,
    str_set := sp, int_set := ip, output_size := outputSize cfg.ngram_indexes }

/-- `Ngram::Ngram` (ngram.cc lines 278-370): attribute validation in source
order, then the pool-construction loop.  Line 296 of the source checks
`impl_->N_ >= 0` where its message demands a non-negative `S`; the model
reproduces that check as written. -/
def buildEngine (cfg : NgramCfg) : Except ConfigError NgramEngine :=
  if parseMode cfg.mode = WeightingCriteria.kNone then .error .unrecognizedMode
  else if ¬ 0 < cfg.M then .error .badM
  else if ¬ cfg.M ≤ cfg.N then .error .badMN
  else if ¬ 0 ≤ cfg.N then .error .badS
  else if cfg.ngram_counts = [] then .error .emptyNgramCounts
  else if ¬ toSize cfg.M ≤ cfg.ngram_counts.length then .error .mOutOfBounds
  else if ¬ toSize cfg.N ≤ cfg.ngram_counts.length then .error .nOutOfBounds
  else if cfg.ngram_indexes = [] then .error .emptyNgramIndexes
  else if ¬ (cfg.ngram_indexes.all fun i => decide (0 ≤ i)) then .error .negativeNgramIndex
  else if ¬ (cfg.weights.elim true fun w => w.length == cfg.ngram_indexes.length) then
    .error .weightsSizeMismatch
  else
    match cfg.pool_strings with
    | some ps =>
      if ps = [] then .error .emptyPoolStrings
      else
        (buildRuns ps ps.length (retainOrder (cfg.all != 0) (toSize cfg.M) (toSize cfg.N))
            (runBounds ps.length cfg.ngram_counts) 1 0 []).map
          fun sp => mkEngine cfg ps sp []
    | none =>
      match cfg.pool_int64s with
      | some pi =>
        if pi = [] then .error .missingPool
        else
          (buildRuns pi pi.length (retainOrder (cfg.all != 0) (toSize cfg.M) (toSize cfg.N))
              (runBounds pi.length cfg.ngram_counts) 1 0 []).map
            fun ip => mkEngine cfg [] [] ip
      | none => .error .missingPool

/-- `Ngram::Impl::IncrementCount` (ngram.cc lines 239-245): map the pool id
through `ngram_indexes_` and bump that accumulator slot.  The out-of-range
and negative-index branches (an assert and an enforce in the source,
unreachable after construction validated the indexes) leave the accumulator
unchanged. -/
def IncrementCount (idxs : List ℤ) (id : ℕ) (fr : List ℕ) : List ℕ :=
  match idxs[id]? with
  | some b => if 0 ≤ b ∧ b.toNat < fr.length then fr.set b.toNat (fr.getD b.toNat 0 + 1) else fr
  | none => fr

/-- `PoolFind` (ngram.cc lines 263-276): look a sample up in the pool by
structural equality of the token vectors, yielding the stored id. -/
def poolFind (pool : Pool T) (sample : List T) : Option ℕ :=
  (pool.find? fun e => decide (e.2 = sample)).map fun e => e.1

/-- One lookup-and-record step: on a pool hit, record the hit's id in the
accumulator (ngram.cc lines 444-449 and 483-488). -/
def hitStep (pool : Pool T) (idxs : List ℤ) (sample : List T) (fr : List ℕ) : List ℕ :=
  match poolFind pool sample with
  | some id => IncrementCount idxs id fr
  | none => fr

/-- The sample grown at start position `p` with item distance `si` up to `k`
tokens (ngram.cc lines 473-479): tokens at `p, p+si, p+2*si, ...`; growth
stops at the first index past the input's end. -/
def strideWindow (input : List T) (si : ℕ) : ℕ → ℕ → List T
  | _, 0 => []
  | p, k + 1 =>
    match input[p]? with
    | some t => t :: strideWindow input si (p + si) k
    | none => []

/-- The unigram special pass (ngram.cc lines 438-450): every single-token
window is looked up as an order-1 key. -/
def unigramPass (pool : Pool T) (idxs : List ℤ) (input : List T) (fr0 : List ℕ) : List ℕ :=
  input.foldl (fun fr t => hitStep pool idxs [t] fr) fr0

/-- One pass of the general scan at item distance `si`
(ngram.cc lines 464-492): start positions run while a window of the minimum
retained order still fits (the source breaks at the first start position
where it does not; that bound is monotone in the position, so the break is a
filter); at each start the window grows one token at a time and every order
from `start` up to `N` that fully fits is looked up in the pool. -/
def stridePass (pool : Pool T) (idxs : List ℤ) (input : List T)
    (si start N : ℕ) (fr0 : List ℕ) : List ℕ :=
  (List.range input.length).foldl
    (fun fr p =>
      if p + si * (start - 1) < input.length then
        (List.range N).foldl
          (fun fr2 j =>
            if start ≤ j + 1 ∧ p + j * si < input.length then
              hitStep pool idxs (strideWindow input si p (j + 1)) fr2
            else fr2)
          fr
      else fr)
    fr0

/-- The stride loop (ngram.cc line 463): item distances `1 .. n` in order. -/
def strideLoop (f : ℕ → List ℕ → List ℕ) : ℕ → List ℕ → List ℕ
  | 0, fr => fr
  | n + 1, fr => f (n + 1) (strideLoop f n fr)

/-- The frequency-accumulation part of `Ngram::ComputeImpl`
(ngram.cc lines 420-494): a zeroed accumulator of `output_size` bins, the
unigram special case (with early return when the bumped starting order
exceeds `N`), then the stride loop with distances `1 .. S+1`. -/
def computeFreqs (pool : Pool T) (idxs : List ℤ) (osize : ℕ)
    (Mz Nz Sz : ℤ) (allB : Bool) (input : List T) : List ℕ :=
  let N := Nz.toNat
  let start0 := if allB then Mz.toNat else N
  let fr0 := List.replicate osize 0
  if start0 = 1 then
    let fr1 := unigramPass pool idxs input fr0
    if N < 2 then fr1
    else strideLoop (fun si fr => stridePass pool idxs input si 2 N fr) (Sz + 1).toNat fr1
  else strideLoop (fun si fr => stridePass pool idxs input si start0 N fr) (Sz + 1).toNat fr0

/-- `Ngram::OutputResult` (ngram.cc lines 375-418): encode the accumulated
counts under the weighting mode; floats are modelled as exact rationals.
In the `kNone` arm the source hits `assert(false)` (unreachable: the
constructor rejected such a mode); the model returns an empty vector there. -/
def OutputResult (wc : WeightingCriteria) (w : List ℚ) (freq : List ℕ) : List ℚ :=
  match wc with
  | .kTF => freq.map fun f => (f : ℚ)
  | .kIDF =>
    if w ≠ [] then
      (List.range freq.length).map fun i => if 0 < freq.getD i 0 then w.getD i 0 else 0
    else freq.map fun f => if 0 < f then 1 else 0
  | .kTFIDF =>
    if w ≠ [] then
      (List.range freq.length).map fun i => (freq.getD i 0 : ℚ) * w.getD i 0
    else freq.map fun f => (f : ℚ)
  | .kNone => []

/-- A flattened input tensor together with its element kind; `unsupported`
stands for any element dtype other than int32, int64 and string.  Int32
tokens are already widened to 64-bit, as `NgramItem<int32_t>` stores them in
the `NgramItem<int64_t>` base. -/
inductive InputTensor
  | i32 (data : List ℤ)
  | i64 (data : List ℤ)
  | str (data : List String)
  | unsupported
  deriving DecidableEq

/-- `Ngram::ComputeImpl` for one dtype: scan and encode. -/
def ComputeImpl (e : NgramEngine) (pool : Pool T) (input : List T) : List ℚ :=
  OutputResult e.weighting e.weights
    (computeFreqs pool e.ngram_indexes e.output_size e.M e.N e.S e.all input)

/-- `Ngram::Compute` (ngram.cc lines 497-524) with the engine state threaded
explicitly: dispatch on the input element kind (int32 shares the int64 pool);
an unsupported kind yields an invalid-argument status.  The method is `const`
in the source — the returned engine state is the input engine. -/
def ngramCompute (e : NgramEngine) (input : InputTensor) :
    Except String (List ℚ) × NgramEngine :=
  match input with
  | .i32 d => (.ok (ComputeImpl e e.int_set d), e)
  | .i64 d => (.ok (ComputeImpl e e.int_set d), e)
  | .str d => (.ok (ComputeImpl e e.str_set d), e)
  | .unsupported => (.error "Invalid type of the input argument", e)

/-- Spec-side matcher pass, following the stride-semantics sentence of the
specification: only contiguous windows `input[p .. p+k)` are tested, for
every order `k` from the starting order up to `N` that fully fits. -/
def contiguousPass (pool : Pool T) (idxs : List ℤ) (input : List T)
    (start N : ℕ) (fr0 : List ℕ) : List ℕ :=
  (List.range input.length).foldl
    (fun fr p =>
      if p + (start - 1) < input.length then
        (List.range N).foldl
          (fun fr2 j =>
            if start ≤ j + 1 ∧ p + j < input.length then
              hitStep pool idxs ((input.drop p).take (j + 1)) fr2
            else fr2)
          fr
      else fr)
    fr0

/-- Spec-side matcher with contiguous windows only: the unigram special
case followed by a single contiguous pass. -/
def contiguousFreqs (pool : Pool T) (idxs : List ℤ) (osize : ℕ)
    (Mz Nz : ℤ) (allB : Bool) (input : List T) : List ℕ :=
  let N := Nz.toNat
  let start0 := if allB then Mz.toNat else N
  let fr0 := List.replicate osize 0
  if start0 = 1 then
    let fr1 := unigramPass pool idxs input fr0
    if N < 2 then fr1
    else contiguousPass pool idxs input 2 N fr1
  else contiguousPass pool idxs input start0 N fr0

/-- Pointwise order on accumulators: same length and elementwise `≤`. -/
def FreqLe (a b : List ℕ) : Prop := List.Forall₂ (· ≤ ·) a b

theorem freqLe_refl (a : List ℕ) : FreqLe a a :=
  List.forall₂_same.2 fun _ _ => le_refl _

theorem freqLe_trans {a b c : List ℕ} (h1 : FreqLe a b) (h2 : FreqLe b c) : FreqLe a c := by
  induction h1 generalizing c with
  | nil => cases h2; exact List.Forall₂.nil
  | @cons x y xs ys hxy _ ih =>
    cases h2 with
    | cons hyz h2 => exact List.Forall₂.cons (le_trans hxy hyz) (ih h2)

theorem freqLe_set_incr : ∀ (l : List ℕ) (n : ℕ), FreqLe l (l.set n (l.getD n 0 + 1)) := by
  intro l
  induction l with
  | nil => intro n; exact List.Forall₂.nil
  | cons x xs ih =>
    intro n
    cases n with
    | zero => exact List.Forall₂.cons (Nat.le_succ x) (freqLe_refl xs)
    | succ n =>
      simp only [List.set_cons_succ, List.getD_cons_succ]
      exact List.Forall₂.cons (le_refl x) (ih n)

theorem IncrementCount_freqLe (idxs : List ℤ) (id : ℕ) (fr : List ℕ) :
    FreqLe fr (IncrementCount idxs id fr) := by
  unfold IncrementCount
  cases idxs[id]? with
  | none => exact freqLe_refl fr
  | some b =>
    dsimp only
    split
    · exact freqLe_set_incr fr b.toNat
    · exact freqLe_refl fr

theorem hitStep_freqLe (pool : Pool T) (idxs : List ℤ) (sample : List T) (fr : List ℕ) :
    FreqLe fr (hitStep pool idxs sample fr) := by
  unfold hitStep
  cases poolFind pool sample with
  | none => exact freqLe_refl fr
  | some id => exact IncrementCount_freqLe idxs id fr

theorem foldl_freqLe {β : Type} (f : List ℕ → β → List ℕ)
    (hf : ∀ fr x, FreqLe fr (f fr x)) :
    ∀ (l : List β) (fr : List ℕ), FreqLe fr (List.foldl f fr l) := by
  intro l
  induction l with
  | nil => intro fr; exact freqLe_refl fr
  | cons x xs ih => intro fr; exact freqLe_trans (hf fr x) (ih (f fr x))

theorem stridePass_freqLe (pool : Pool T) (idxs : List ℤ) (input : List T)
    (si start N : ℕ) (fr : List ℕ) : FreqLe fr (stridePass pool idxs input si start N fr) := by
  unfold stridePass
  apply foldl_freqLe
  intro fr1 p
  split
  · apply foldl_freqLe
    intro fr2 j
    split
    · exact hitStep_freqLe pool idxs _ fr2
    · exact freqLe_refl fr2
  · exact freqLe_refl fr1

theorem strideLoop_freqLe (f : ℕ → List ℕ → List ℕ)
    (hf : ∀ si fr, FreqLe fr (f si fr)) :
    ∀ (n : ℕ) (fr : List ℕ), FreqLe fr (strideLoop f n fr) := by
  intro n
  induction n with
  | zero => intro fr; exact freqLe_refl fr
  | succ n ih => intro fr; exact freqLe_trans (ih fr) (hf (n + 1) (strideLoop f n fr))

theorem strideLoop_mono (f : ℕ → List ℕ → List ℕ)
    (hf : ∀ si fr, FreqLe fr (f si fr)) {m n : ℕ} (h : m ≤ n) (fr : List ℕ) :
    FreqLe (strideLoop f m fr) (strideLoop f n fr) := by
  induction n with
  | zero =>
    have : m = 0 := Nat.le_zero.mp h
    subst this
    exact freqLe_refl _
  | succ n ih =>
    by_cases h1 : m = n + 1
    · subst h1; exact freqLe_refl _
    · exact freqLe_trans (ih (by omega)) (hf (n + 1) (strideLoop f n fr))

theorem strideWindow_one (input : List T) :
    ∀ (k p : ℕ), strideWindow input 1 p k = (input.drop p).take k := by
  intro k
  induction k with
  | zero => intro p; rfl
  | succ k ih =>
    intro p
    rw [strideWindow]
    cases hg : input[p]? with
    | some t =>
      obtain ⟨hlt, ht⟩ := List.getElem?_eq_some.mp hg
      rw [List.drop_eq_getElem_cons hlt, List.take_succ_cons, ih (p + 1), ht]
    | none =>
      have hle : input.length ≤ p := by
        by_contra hc
        rw [List.getElem?_eq_getElem (Nat.lt_of_not_le hc)] at hg
        exact Option.noConfusion hg
      rw [List.drop_eq_nil_of_le hle, List.take_nil]

theorem stridePass_one (pool : Pool T) (idxs : List ℤ) (input : List T)
    (start N : ℕ) (fr : List ℕ) :
    stridePass pool idxs input 1 start N fr = contiguousPass pool idxs input start N fr := by
  unfold stridePass contiguousPass
  apply List.foldl_ext
  intro fr1 p _
  simp only [Nat.one_mul, Nat.mul_one]
  split
  · apply List.foldl_ext
    intro fr2 j _
    rw [strideWindow_one]
  · rfl

theorem strideLoop_one (f : ℕ → List ℕ → List ℕ) (fr : List ℕ) :
    strideLoop f 1 fr = f 1 fr := rfl

theorem computeFreqs_contiguous_of_S0 (pool : Pool T) (idxs : List ℤ) (osize : ℕ)
    (Mz Nz : ℤ) (allB : Bool) (input : List T) :
    computeFreqs pool idxs osize Mz Nz 0 allB input =
      contiguousFreqs pool idxs osize Mz Nz allB input := by
  simp only [computeFreqs, contiguousFreqs]
  have h1 : ((0 : ℤ) + 1).toNat = 1 := rfl
  rw [h1]
  split_ifs <;> first
    | rfl
    | rw [strideLoop_one, stridePass_one]

theorem computeFreqs_S_mono (pool : Pool T) (idxs : List ℤ) (osize : ℕ)
    (Mz Nz Sz : ℤ) (allB : Bool) (input : List T) :
    FreqLe (computeFreqs pool idxs osize Mz Nz Sz allB input)
      (computeFreqs pool idxs osize Mz Nz (Sz + 1) allB input) := by
  simp only [computeFreqs]
  have hn : (Sz + 1).toNat ≤ (Sz + 1 + 1).toNat := Int.toNat_le_toNat (by omega)
  split_ifs <;> first
    | exact freqLe_refl _
    | · apply strideLoop_mono
        · intro si fr
          exact stridePass_freqLe pool idxs input si _ _ fr
        · exact hn

/-- The n-grams of one run: `n` consecutive windows of `k` tokens starting
at offset `s` of the vocabulary, in vocabulary order. -/
def runNgrams (vocab : List T) (k : ℕ) : ℕ → ℕ → List (List T)
  | _, 0 => []
  | s, n + 1 => ((vocab.drop s).take k) :: runNgrams vocab k (s + k) n

/-- The full enumeration of the vocabulary's n-grams across all runs in
boundary order; the position of an n-gram in this list is its ordinal
position in the full id space. -/
def fullEnum (vocab : List T) : List (ℕ × ℕ) → ℕ → List (List T)
  | [], _ => []
  | (s, e) :: rest, k => runNgrams vocab k s ((e - s) / k) ++ fullEnum vocab rest (k + 1)

/-- Whether a pool-construction result is specifically the duplicate-n-gram
configuration error. -/
def isDupErr {α : Type} : Except ConfigError α → Bool
  | .error (.duplicateNgrams _) => true
  | _ => false

/-- All runs satisfy the bounds and whole-n-gram checks of the construction
loop (the non-duplicate configuration validation of the runs). -/
def boundsOkB (total : ℕ) : List (ℕ × ℕ) → ℕ → Bool
  | [], _ => true
  | (s, e) :: rest, k =>
      decide (s ≤ e) && decide (e ≤ total) && ((e - s) % k == 0) && boundsOkB total rest (k + 1)

/-- Some retained run contains two structurally equal n-grams (necessarily of
the same order, since each run holds the n-grams of exactly one order). -/
def hasRetainedDupB (vocab : List T) (retain : ℕ → Bool) : List (ℕ × ℕ) → ℕ → Bool
  | [], _ => false
  | (s, e) :: rest, k =>
      (retain k && ! decide ((runNgrams vocab k s ((e - s) / k)).Nodup)) ||
        hasRetainedDupB vocab retain rest (k + 1)

theorem runNgrams_length (vocab : List T) (k : ℕ) :
    ∀ (n s : ℕ), (runNgrams vocab k s n).length = n := by
  intro n
  induction n with
  | zero => intro s; rfl
  | succ n ih => intro s; rw [runNgrams, List.length_cons, ih]

theorem runNgrams_getElem? (vocab : List T) (k : ℕ) :
    ∀ (n s j : ℕ), j < n →
      (runNgrams vocab k s n)[j]? = some ((vocab.drop (s + j * k)).take k) := by
  intro n
  induction n with
  | zero => intro s j h; omega
  | succ n ih =>
    intro s j h
    cases j with
    | zero => rw [runNgrams, List.getElem?_cons_zero, Nat.zero_mul, Nat.add_zero]
    | succ j =>
      rw [runNgrams, List.getElem?_cons_succ, ih (s + k) j (by omega)]
      have harith : s + k + j * k = s + (j + 1) * k := by ring
      rw [harith]

theorem runNgrams_mem_length (vocab : List T) (k : ℕ) :
    ∀ (n s : ℕ), s + n * k ≤ vocab.length → ∀ w ∈ runNgrams vocab k s n, w.length = k := by
  intro n
  induction n with
  | zero => intro s _ w hw; cases hw
  | succ n ih =>
    intro s h w hw
    have hsk : s + (n * k + k) ≤ vocab.length := by rwa [Nat.succ_mul] at h
    rcases List.mem_cons.mp hw with h1 | h1
    · subst h1
      rw [List.length_take, List.length_drop]
      have hs : s + k ≤ vocab.length :=
        le_trans (Nat.add_le_add_left (Nat.le_add_left k (n * k)) s) hsk
      omega
    · refine ih (s + k) ?_ w h1
      calc s + k + n * k = s + (n * k + k) := by ring
        _ ≤ vocab.length := hsk

theorem setEmplace_mem {pool : Pool T} {id : ℕ} {items : List T} {e : ℕ × List T}
    (h : e ∈ setEmplace pool id items) : e ∈ pool ∨ e = (id, items) := by
  unfold setEmplace at h
  split at h
  · exact Or.inl h
  · rcases List.mem_append.mp h with h1 | h1
    · exact Or.inl h1
    · exact Or.inr (List.mem_singleton.mp h1)

theorem setEmplace_length_le (pool : Pool T) (id : ℕ) (items : List T) :
    (setEmplace pool id items).length ≤ pool.length + 1 := by
  unfold setEmplace
  split
  · omega
  · rw [List.length_append]; rfl

theorem Emplace_mem (vocab : List T) (k : ℕ) :
    ∀ (n s id : ℕ) (pool : Pool T) (e : ℕ × List T), e ∈ Emplace vocab k s n id pool →
      e ∈ pool ∨
        (id ≤ e.1 ∧ e.1 < id + n ∧ e.2 = (vocab.drop (s + (e.1 - id) * k)).take k) := by
  intro n
  induction n with
  | zero => intro s id pool e h; exact Or.inl h
  | succ n ih =>
    intro s id pool e h
    rw [Emplace] at h
    rcases ih (s + k) (id + 1) _ e h with h1 | ⟨h1, h2, h3⟩
    · rcases setEmplace_mem h1 with h2 | h2
      · exact Or.inl h2
      · subst h2
        refine Or.inr ⟨le_refl _, by show id < id + (n + 1); omega, ?_⟩
        show (vocab.drop s).take k = (vocab.drop (s + (id - id) * k)).take k
        rw [Nat.sub_self, Nat.zero_mul, Nat.add_zero]
    · refine Or.inr ⟨by omega, by omega, ?_⟩
      rw [h3]
      have hj : e.1 - id = (e.1 - (id + 1)) + 1 := by omega
      have harith : s + k + (e.1 - (id + 1)) * k = s + ((e.1 - (id + 1)) + 1) * k := by ring
      rw [hj, ← harith]

theorem Emplace_length_le (vocab : List T) (k : ℕ) :
    ∀ (n s id : ℕ) (pool : Pool T), (Emplace vocab k s n id pool).length ≤ pool.length + n := by
  intro n
  induction n with
  | zero => intro s id pool; exact le_refl _
  | succ n ih =>
    intro s id pool
    rw [Emplace]
    calc (Emplace vocab k (s + k) n (id + 1) (setEmplace pool id ((vocab.drop s).take k))).length
        ≤ (setEmplace pool id ((vocab.drop s).take k)).length + n := ih (s + k) (id + 1) _
      _ ≤ pool.length + (n + 1) := by
          have := setEmplace_length_le pool id ((vocab.drop s).take k)
          omega

theorem Emplace_length_iff (vocab : List T) (k : ℕ) :
    ∀ (n s id : ℕ) (pool : Pool T),
      (Emplace vocab k s n id pool).length = pool.length + n ↔
        ((runNgrams vocab k s n).Nodup ∧
          ∀ w ∈ runNgrams vocab k s n, ∀ e ∈ pool, e.2 ≠ w) := by
  intro n
  induction n with
  | zero =>
    intro s id pool
    constructor
    · intro _; exact ⟨List.nodup_nil, fun w hw => absurd hw (List.not_mem_nil w)⟩
    · intro _; rfl
  | succ n ih =>
    intro s id pool
    rw [Emplace, runNgrams]
    by_cases hdup : pool.any (fun e => decide (e.2 = (vocab.drop s).take k)) = true
    · have hset : setEmplace pool id ((vocab.drop s).take k) = pool := by
        unfold setEmplace; rw [if_pos hdup]
      rw [hset]
      obtain ⟨e0, he0, hee0⟩ := List.any_eq_true.mp hdup
      have he0eq : e0.2 = (vocab.drop s).take k := of_decide_eq_true hee0
      constructor
      · intro hlen
        exfalso
        have := Emplace_length_le vocab k n (s + k) (id + 1) pool
        omega
      · rintro ⟨_, hdisj⟩
        exact absurd he0eq (hdisj _ (List.mem_cons_self _ _) e0 he0)
    · have hset : setEmplace pool id ((vocab.drop s).take k) =
          pool ++ [(id, (vocab.drop s).take k)] := by
        unfold setEmplace; rw [if_neg hdup]
      have hpool : ∀ e ∈ pool, e.2 ≠ (vocab.drop s).take k := by
        intro e he hc
        exact hdup (List.any_eq_true.mpr ⟨e, he, decide_eq_true hc⟩)
      rw [hset]
      have hlen : pool.length + (n + 1) = (pool ++ [(id, (vocab.drop s).take k)]).length + n := by
        rw [List.length_append, List.length_singleton]; omega
      rw [hlen, ih (s + k) (id + 1) _]
      constructor
      · rintro ⟨hnd, hdisj⟩
        refine ⟨List.nodup_cons.mpr ⟨?_, hnd⟩, ?_⟩
        · intro hwin
          exact hdisj _ hwin (id, (vocab.drop s).take k) (by simp) rfl
        · intro w2 hw2 e he
          rcases List.mem_cons.mp hw2 with h1 | h1
          · rw [h1]; exact hpool e he
          · exact hdisj w2 h1 e (List.mem_append_left _ he)
      · rintro ⟨hnd, hdisj⟩
        obtain ⟨hwnotin, hndrest⟩ := List.nodup_cons.mp hnd
        refine ⟨hndrest, ?_⟩
        intro w2 hw2 e he
        rcases List.mem_append.mp he with h1 | h1
        · exact hdisj w2 (List.mem_cons_of_mem _ hw2) e h1
        · rw [List.mem_singleton.mp h1]
          intro hc
          have hc2 : (vocab.drop s).take k = w2 := hc
          exact hwnotin (by rw [hc2]; exact hw2)

theorem buildRuns_mem_ordinal (vocab : List T) (total : ℕ) (retain : ℕ → Bool) :
    ∀ (bounds : List (ℕ × ℕ)) (k id0 : ℕ) (pool0 pool : Pool T),
      buildRuns vocab total retain bounds k id0 pool0 = .ok pool →
      ∀ e ∈ pool, e ∈ pool0 ∨
        (id0 ≤ e.1 ∧ (fullEnum vocab bounds k)[e.1 - id0]? = some e.2) := by
  intro bounds
  induction bounds with
  | nil =>
    intro k id0 pool0 pool h e he
    rw [buildRuns] at h
    cases h
    exact Or.inl he
  | cons b rest ih =>
    obtain ⟨s, en⟩ := b
    intro k id0 pool0 pool h e he
    simp only [buildRuns] at h
    split at h
    · exact Except.noConfusion h
    · by_cases hitems : en - s = 0
      · rw [if_pos hitems] at h
        rcases ih (k + 1) id0 pool0 pool h e he with h1 | ⟨h1, h2⟩
        · exact Or.inl h1
        · refine Or.inr ⟨h1, ?_⟩
          rw [fullEnum, hitems, Nat.zero_div]
          exact h2
      · rw [if_neg hitems] at h
        split at h
        · exact Except.noConfusion h
        · split at h
          · -- retained run
            split at h
            · -- the duplicate length check passed
              rcases ih (k + 1) (id0 + (en - s) / k) _ pool h e he with h1 | ⟨h1, h2⟩
              · rcases Emplace_mem vocab k ((en - s) / k) s id0 pool0 e h1 with
                  h2 | ⟨h2, h3, h4⟩
                · exact Or.inl h2
                · have hj : e.1 - id0 < (en - s) / k := by
                    revert h2 h3; generalize (en - s) / k = q; intro h2 h3; omega
                  refine Or.inr ⟨h2, ?_⟩
                  rw [fullEnum, List.getElem?_append,
                    if_pos (by rw [runNgrams_length]; exact hj),
                    runNgrams_getElem? vocab k ((en - s) / k) s (e.1 - id0) hj, ← h4]
              · have hfacts : id0 ≤ e.1 ∧ (en - s) / k ≤ e.1 - id0 ∧
                    e.1 - id0 - (en - s) / k = e.1 - (id0 + (en - s) / k) := by
                  revert h1; generalize (en - s) / k = q; intro h1; omega
                refine Or.inr ⟨hfacts.1, ?_⟩
                rw [fullEnum,
                  List.getElem?_append_right (by rw [runNgrams_length]; exact hfacts.2.1),
                  runNgrams_length, hfacts.2.2]
                exact h2
            · exact Except.noConfusion h
          · -- run not retained: only the id advances
            rcases ih (k + 1) (id0 + (en - s) / k) pool0 pool h e he with h1 | ⟨h1, h2⟩
            · exact Or.inl h1
            · have hfacts : id0 ≤ e.1 ∧ (en - s) / k ≤ e.1 - id0 ∧
                  e.1 - id0 - (en - s) / k = e.1 - (id0 + (en - s) / k) := by
                revert h1; generalize (en - s) / k = q; intro h1; omega
              refine Or.inr ⟨hfacts.1, ?_⟩
              rw [fullEnum,
                List.getElem?_append_right (by rw [runNgrams_length]; exact hfacts.2.1),
                runNgrams_length, hfacts.2.2]
              exact h2

theorem buildRuns_dup_eq (vocab : List T) (total : ℕ) (retain : ℕ → Bool)
    (htot : total ≤ vocab.length) :
    ∀ (bounds : List (ℕ × ℕ)) (k id : ℕ) (pool : Pool T),
      boundsOkB total bounds k = true →
      (∀ e ∈ pool, e.2.length < k) →
      isDupErr (buildRuns vocab total retain bounds k id pool) =
        hasRetainedDupB vocab retain bounds k := by
  intro bounds
  induction bounds with
  | nil => intro k id pool _ _; rfl
  | cons b rest ih =>
    obtain ⟨s, en⟩ := b
    intro k id pool hb hp
    simp only [boundsOkB, Bool.and_eq_true, decide_eq_true_eq, beq_iff_eq] at hb
    obtain ⟨⟨⟨hse, het⟩, hmod⟩, hbrest⟩ := hb
    simp only [buildRuns, hasRetainedDupB]
    rw [if_neg (not_not_intro ⟨hse, het⟩)]
    by_cases hitems : en - s = 0
    · rw [if_pos hitems, hitems, Nat.zero_div]
      rw [ih (k + 1) id pool hbrest (fun e he => Nat.lt_succ_of_lt (hp e he))]
      show hasRetainedDupB vocab retain rest (k + 1) =
        ((retain k && !decide (runNgrams vocab k s 0).Nodup) ||
          hasRetainedDupB vocab retain rest (k + 1))
      rw [show (runNgrams vocab k s 0) = [] from rfl]
      simp
    · rw [if_neg hitems, if_neg (not_not_intro hmod)]
      -- each window of this run has length exactly k, the pool's entries are shorter
      have hnk : (en - s) / k * k = en - s := Nat.div_mul_cancel (Nat.dvd_of_mod_eq_zero hmod)
      have hrun : s + ((en - s) / k) * k ≤ vocab.length := by
        rw [hnk]; omega
      have hdisj : ∀ w ∈ runNgrams vocab k s ((en - s) / k), ∀ e ∈ pool, e.2 ≠ w := by
        intro w hw e he hc
        have hwk : w.length = k := runNgrams_mem_length vocab k ((en - s) / k) s hrun w hw
        have := hp e he
        rw [hc, hwk] at this
        omega
      by_cases hr : retain k = true
      · rw [if_pos hr]
        by_cases hnd : (runNgrams vocab k s ((en - s) / k)).Nodup
        · rw [if_pos ((Emplace_length_iff vocab k ((en - s) / k) s id pool).mpr ⟨hnd, hdisj⟩)]
          have hinv : ∀ e ∈ Emplace vocab k s ((en - s) / k) id pool, e.2.length < k + 1 := by
            intro e he
            rcases Emplace_mem vocab k ((en - s) / k) s id pool e he with h1 | ⟨_, _, h1⟩
            · exact Nat.lt_succ_of_lt (hp e h1)
            · rw [h1]
              have := List.length_take_le k (vocab.drop (s + (e.1 - id) * k))
              omega
          rw [ih (k + 1) (id + (en - s) / k) _ hbrest hinv]
          simp [hr, hnd]
        · rw [if_neg (fun hc =>
            hnd ((Emplace_length_iff vocab k ((en - s) / k) s id pool).mp hc).1)]
          show true = _
          simp [hr, hnd]
      · rw [if_neg hr]
        rw [ih (k + 1) (id + (en - s) / k) pool hbrest (fun e he => Nat.lt_succ_of_lt (hp e he))]
        simp [hr]

theorem le_foldl_max_init (l : List ℤ) : ∀ a : ℤ, a ≤ l.foldl max a := by
  induction l with
  | nil => intro a; exact le_refl a
  | cons x xs ih => intro a; exact le_trans (le_max_left a x) (ih (max a x))

theorem le_foldl_max_mem (l : List ℤ) : ∀ (a b : ℤ), b ∈ l → b ≤ l.foldl max a := by
  induction l with
  | nil => intro a b h; cases h
  | cons x xs ih =>
    intro a b h
    rcases List.mem_cons.mp h with h1 | h1
    · subst h1; exact le_trans (le_max_right a b) (le_foldl_max_init xs (max a b))
    · exact ih (max a x) b h1

theorem mem_le_foldl_max {x b : ℤ} {rest : List ℤ} (h : b ∈ x :: rest) :
    b ≤ rest.foldl max x := by
  rcases List.mem_cons.mp h with h1 | h1
  · subst h1; exact le_foldl_max_init rest b
  · exact le_foldl_max_mem rest x b h1

/-- The configuration of the spec's scenario: string vocabulary
`["a","b","a","b"]`, boundaries `[0,2]` (order-1 run `["a"],["b"]`, order-2
run `[("a","b")]`), `M=1, N=2, S=0, all=true`, `ngram_indexes=[0,1,2]`,
mode `TF`. -/
def cfgScenario : NgramCfg :=
  { mode := "TF", M := 1, N := 2, S := 0, all := 1,
    ngram_counts := [0, 2], ngram_indexes := [0, 1, 2],
    weights := none, pool_strings := some ["a", "b", "a", "b"], pool_int64s := none }

/-- A configuration with a negative skip count `S = -1` and every other
attribute valid. -/
def cfgNegSkip : NgramCfg :=
  { mode := "TF", M := 1, N := 1, S := -1, all := 1,
    ngram_counts := [0], ngram_indexes := [0],
    weights := none, pool_strings := none, pool_int64s := some [5] }

/-- A configuration whose `M = N = 2` exceed the length of its boundary list
`ngram_counts = [0]`, with every other attribute valid. -/
def cfgBeyondCounts : NgramCfg :=
  { mode := "TF", M := 2, N := 2, S := 0, all := 1,
    ngram_counts := [0], ngram_indexes := [0],
    weights := none, pool_strings := none, pool_int64s := some [1] }

/-- C1: the spec requires construction to fail whenever the skip count `S`
is negative.  The code does not: line 296 of ngram.cc enforces
`impl_->N_ >= 0` (always true once `N ≥ M > 0` passed) where its own message
demands a non-negative `S`, so a configuration with `S = -1` is accepted and
its engine computes normally. -/
theorem claim_C1_negative_skip_accepted :
    cfgNegSkip.S < 0 ∧
    (∃ e, buildEngine cfgNegSkip = .ok e) ∧
    (buildEngine cfgNegSkip).map (fun e => (ngramCompute e (.i64 [5])).1) =
      .ok (.ok [(1 : ℚ)]) :=
  ⟨by decide, ⟨_, rfl⟩, rfl⟩

/-- C2: on the scenario configuration, the pool holds ids 0,1 for the
unigrams "a","b" and id 2 for the bigram ("a","b"), and the matcher and
encoder on input `["a","b","a"]` return `[2.0, 1.0, 1.0]`. -/
theorem claim_C2_scenario :
    (buildEngine cfgScenario).map (fun e => e.str_set) =
        .ok [(0, ["a"]), (1, ["b"]), (2, ["a", "b"])] ∧
      (buildEngine cfgScenario).map (fun e => (ngramCompute e (.str ["a", "b", "a"])).1) =
        .ok (.ok [(2 : ℚ), 1, 1]) :=
  ⟨rfl, rfl⟩

/-- C3: whenever the pool-construction loop succeeds, every retained pool
entry's id indexes the full enumeration of the vocabulary's n-grams (across
all orders, retained or not) exactly at that entry's own token vector: ids
equal ordinal positions in the full id space. -/
theorem claim_C3_pool_ids_ordinal (vocab : List T) (counts : List ℤ) (total : ℕ)
    (retain : ℕ → Bool) (pool : Pool T)
    (h : buildRuns vocab total retain (runBounds total counts) 1 0 [] = .ok pool) :
    ∀ e ∈ pool, (fullEnum vocab (runBounds total counts) 1)[e.1]? = some e.2 := by
  intro e he
  rcases buildRuns_mem_ordinal vocab total retain (runBounds total counts) 1 0 [] pool h e he
    with h1 | ⟨_, h2⟩
  · cases h1
  · simpa using h2

theorem claim_C3_pool_ids_ordinal_witness :
    (fullEnum ["a", "b", "a", "b"] (runBounds 4 [0, 2]) 1)[2]? = some ["a", "b"] :=
  claim_C3_pool_ids_ordinal ["a", "b", "a", "b"] [0, 2] 4
    (retainOrder true 1 2) [(0, ["a"]), (1, ["b"]), (2, ["a", "b"])] (by rfl)
    (2, ["a", "b"]) (by decide)

/-- C4: when every run passes the bounds and whole-n-gram checks, the
pool-construction loop ends in the duplicate-n-gram configuration error
exactly when some retained run (the n-grams of one order) contains two
structurally equal n-grams; equal token sequences in runs of different
orders never do, as the characterization only inspects single runs. -/
theorem claim_C4_duplicate_iff (vocab : List T) (counts : List ℤ) (retain : ℕ → Bool)
    (hb : boundsOkB vocab.length (runBounds vocab.length counts) 1 = true) :
    isDupErr (buildRuns vocab vocab.length retain (runBounds vocab.length counts) 1 0 []) =
      hasRetainedDupB vocab retain (runBounds vocab.length counts) 1 :=
  buildRuns_dup_eq vocab vocab.length retain (le_refl _) (runBounds vocab.length counts) 1 0 []
    hb (fun e he => absurd he (List.not_mem_nil e))

theorem claim_C4_duplicate_iff_witness :
    isDupErr (buildRuns ["a", "a"] 2 (retainOrder true 1 1) (runBounds 2 [0]) 1 0 []) =
        hasRetainedDupB ["a", "a"] (retainOrder true 1 1) (runBounds 2 [0]) 1 ∧
      hasRetainedDupB ["a", "a"] (retainOrder true 1 1) (runBounds 2 [0]) 1 = true :=
  ⟨claim_C4_duplicate_iff ["a", "a"] [0] (retainOrder true 1 1) (by decide), by decide⟩

/-- C5: with `S = 0` the matcher tests only contiguous (stride-1) windows —
it computes exactly the spec-side contiguous matcher — and for every input
and fixed remaining configuration the per-bin counts with skip count `S+1`
dominate those with skip count `S` pointwise. -/
theorem claim_C5_stride_semantics (pool : Pool T) (idxs : List ℤ) (osize : ℕ)
    (Mz Nz Sz : ℤ) (allB : Bool) (input : List T) :
    computeFreqs pool idxs osize Mz Nz 0 allB input =
        contiguousFreqs pool idxs osize Mz Nz allB input ∧
      FreqLe (computeFreqs pool idxs osize Mz Nz Sz allB input)
        (computeFreqs pool idxs osize Mz Nz (Sz + 1) allB input) :=
  ⟨computeFreqs_contiguous_of_S0 pool idxs osize Mz Nz allB input,
    computeFreqs_S_mono pool idxs osize Mz Nz Sz allB input⟩

/-- C6: in TFIDF mode with no weight list the encoder emits the counts
themselves, identically to TF mode on the same counts — the weight-absent
TFIDF case degenerates to TF rather than failing or scaling. -/
theorem claim_C6_tfidf_no_weights (freq : List ℕ) (w : List ℚ) :
    OutputResult .kTFIDF [] freq = freq.map (fun f => (f : ℚ)) ∧
    OutputResult .kTFIDF [] freq = OutputResult .kTF w freq := by
  refine ⟨?_, ?_⟩ <;> simp [OutputResult]

/-- C7: compute is deterministic and read-only: an invocation leaves the
engine state (pool, output map, weights, configuration) unchanged, and a
second invocation on the resulting state with the same input yields the
identical output vector and again the unchanged state. -/
theorem claim_C7_compute_pure (e : NgramEngine) (input : InputTensor) :
    (ngramCompute e input).2 = e ∧
    (ngramCompute ((ngramCompute e input).2) input).1 = (ngramCompute e input).1 ∧
    (ngramCompute ((ngramCompute e input).2) input).2 = e := by
  cases input <;> exact ⟨rfl, rfl, rfl⟩

/-- C8: for a valid configuration (pool built, output indexes non-empty,
non-negative, and covering the full id space), `output_size` equals the
greatest output index plus one, and every pool id that a pool hit can
produce maps through `ngram_indexes` to exactly one bin in
`[0, output_size)`, so the accumulator increment on a hit always takes the
in-range branch of `IncrementCount`. -/
theorem claim_C8_id_output_alignment (vocab : List T) (counts : List ℤ) (total : ℕ)
    (retain : ℕ → Bool) (idxs : List ℤ) (pool : Pool T)
    (hb : buildRuns vocab total retain (runBounds total counts) 1 0 [] = .ok pool)
    (hne : idxs ≠ [])
    (hpos : ∀ x ∈ idxs, 0 ≤ x)
    (hcover : (fullEnum vocab (runBounds total counts) 1).length ≤ idxs.length) :
    (∃ m, idxs.max? = some m ∧ (outputSize idxs : ℤ) = m + 1) ∧
    ∀ e ∈ pool, ∃ b, idxs[e.1]? = some b ∧ 0 ≤ b ∧ b.toNat < outputSize idxs ∧
      ∀ fr : List ℕ, fr.length = outputSize idxs →
        IncrementCount idxs e.1 fr = fr.set b.toNat (fr.getD b.toNat 0 + 1) := by
  cases idxs with
  | nil => exact absurd rfl hne
  | cons x rest =>
    constructor
    · refine ⟨rest.foldl max x, rfl, ?_⟩
      have h0 : (0 : ℤ) ≤ rest.foldl max x :=
        le_trans (hpos x (List.mem_cons_self x rest)) (le_foldl_max_init rest x)
      show ((((rest.foldl max x).toNat + 1 : ℕ) : ℤ)) = rest.foldl max x + 1
      omega
    · intro e he
      rcases buildRuns_mem_ordinal vocab total retain (runBounds total counts) 1 0 [] pool hb
        e he with h1 | ⟨_, h2⟩
      · cases h1
      · rw [Nat.sub_zero] at h2
        have hlt : e.1 < (fullEnum vocab (runBounds total counts) 1).length :=
          (List.getElem?_eq_some.mp h2).1
        have hlt2 : e.1 < (x :: rest).length := lt_of_lt_of_le hlt hcover
        have h0b : 0 ≤ (x :: rest)[e.1] := hpos _ (List.getElem_mem hlt2)
        have hmax : (x :: rest)[e.1] ≤ rest.foldl max x :=
          mem_le_foldl_max (List.getElem_mem hlt2)
        have hbin : ((x :: rest)[e.1]).toNat < outputSize (x :: rest) := by
          show ((x :: rest)[e.1]).toNat < (rest.foldl max x).toNat + 1
          omega
        refine ⟨(x :: rest)[e.1], List.getElem?_eq_getElem hlt2, h0b, hbin, ?_⟩
        intro fr hfr
        have hcond : 0 ≤ (x :: rest)[e.1] ∧ ((x :: rest)[e.1]).toNat < fr.length :=
          ⟨h0b, by rw [hfr]; exact hbin⟩
        unfold IncrementCount
        rw [List.getElem?_eq_getElem hlt2]
        exact if_pos hcond

theorem claim_C8_id_output_alignment_witness :
    ((∃ m, ([0, 1, 2] : List ℤ).max? = some m ∧ (outputSize [0, 1, 2] : ℤ) = m + 1) ∧
      ∀ e ∈ ([(0, ["a"]), (1, ["b"]), (2, ["a", "b"])] : Pool String),
        ∃ b, ([0, 1, 2] : List ℤ)[e.1]? = some b ∧ 0 ≤ b ∧ b.toNat < outputSize [0, 1, 2] ∧
          ∀ fr : List ℕ, fr.length = outputSize [0, 1, 2] →
            IncrementCount [0, 1, 2] e.1 fr = fr.set b.toNat (fr.getD b.toNat 0 + 1)) :=
  claim_C8_id_output_alignment ["a", "b", "a", "b"] [0, 2] 4 (retainOrder true 1 2)
    [0, 1, 2] [(0, ["a"]), (1, ["b"]), (2, ["a", "b"])] (by rfl) (by decide) (by decide)
    (by decide)

/-- C9: an invocation whose input element kind is not int32, int64 or string
fails with the invalid-argument operation error, leaves the engine state
unchanged, and a subsequent invocation with any supported kind succeeds. -/
theorem claim_C9_unsupported_kind (e : NgramEngine) (d32 d64 : List ℤ) (ds : List String) :
    (ngramCompute e .unsupported).1 = .error "Invalid type of the input argument" ∧
    (ngramCompute e .unsupported).2 = e ∧
    (∃ out, (ngramCompute ((ngramCompute e .unsupported).2) (.i32 d32)).1 = .ok out) ∧
    (∃ out, (ngramCompute ((ngramCompute e .unsupported).2) (.i64 d64)).1 = .ok out) ∧
    (∃ out, (ngramCompute ((ngramCompute e .unsupported).2) (.str ds)).1 = .ok out) :=
  ⟨rfl, rfl, ⟨_, rfl⟩, ⟨_, rfl⟩, ⟨_, rfl⟩⟩

/-- C10: construction requires `M` and `N` to be within bounds of the
boundary list: for 64-bit attribute values, if `M` or `N` exceeds the length
of `ngram_counts`, setup fails with a configuration error. -/
theorem claim_C10_MN_inbounds (cfg : NgramCfg)
    (hM : cfg.M < 2 ^ 63) (hN : cfg.N < 2 ^ 63)
    (h : (cfg.ngram_counts.length : ℤ) < cfg.M ∨ (cfg.ngram_counts.length : ℤ) < cfg.N) :
    ∃ err, buildEngine cfg = .error err := by
  unfold buildEngine
  by_cases c1 : parseMode cfg.mode = WeightingCriteria.kNone
  · rw [if_pos c1]; exact ⟨_, rfl⟩
  rw [if_neg c1]
  by_cases c2 : ¬ (0 : ℤ) < cfg.M
  · rw [if_pos c2]; exact ⟨_, rfl⟩
  rw [if_neg c2]
  by_cases c3 : ¬ cfg.M ≤ cfg.N
  · rw [if_pos c3]; exact ⟨_, rfl⟩
  rw [if_neg c3]
  by_cases c4 : ¬ (0 : ℤ) ≤ cfg.N
  · rw [if_pos c4]; exact ⟨_, rfl⟩
  rw [if_neg c4]
  by_cases c5 : cfg.ngram_counts = []
  · rw [if_pos c5]; exact ⟨_, rfl⟩
  rw [if_neg c5]
  have h2 : (0 : ℤ) < cfg.M := not_not.mp c2
  have h4 : (0 : ℤ) ≤ cfg.N := not_not.mp c4
  have hlt64 : (2 : ℤ) ^ 63 < 2 ^ 64 := by norm_num
  have htsM : toSize cfg.M = cfg.M.toNat := by
    unfold toSize
    rw [Int.emod_eq_of_lt (le_of_lt h2) (lt_trans hM hlt64)]
  have htsN : toSize cfg.N = cfg.N.toNat := by
    unfold toSize
    rw [Int.emod_eq_of_lt h4 (lt_trans hN hlt64)]
  by_cases c6 : ¬ toSize cfg.M ≤ cfg.ngram_counts.length
  · rw [if_pos c6]; exact ⟨_, rfl⟩
  rw [if_neg c6]
  have h6 : cfg.M ≤ (cfg.ngram_counts.length : ℤ) := by
    rw [htsM] at c6
    exact Int.toNat_le.mp (not_not.mp c6)
  have c7 : ¬ toSize cfg.N ≤ cfg.ngram_counts.length := by
    rw [htsN]
    intro hc
    have := Int.toNat_le.mp hc
    omega
  rw [if_pos c7]
  exact ⟨_, rfl⟩

theorem claim_C10_MN_inbounds_witness : ∃ err, buildEngine cfgBeyondCounts = .error err :=
  claim_C10_MN_inbounds cfgBeyondCounts (by decide) (by decide) (by decide)

end NgramOp
